import Mathlib

/-!
Verification of the StarDict-style dictionary conversion core
(Scripts/dictionary/dict_parser.py): binary index readers, blob slicing,
entry construction, synonym resolution, locator parsing and the final
stable sort. Each Python construct is embedded shallowly: bytes are
natural numbers below 256, Python dicts are association lists that keep
insertion order and overwrite in place, fallible code returns an explicit
result type, and loops recurse on an explicit fuel that always suffices
(one loop iteration consumes at least one input byte).
-/

deriving instance DecidableEq for Except

namespace AkhyataDict

/-- A byte of binary input, a natural number in 0..255. -/
abbrev Byte := Nat

/-- Outcome of one of the Python binary readers: a returned mapping, the
implicit Python None returned when control falls off the end of the
function, a struct.error exception, an uncaught UnicodeDecodeError from
decoding word bytes, or the fuel artifact of the embedding (never reached
when fuel exceeds the number of loop iterations, see
readIdxLoop_no_fuel_exhaustion below). -/
inductive ReadRes (α : Type) where
  | ok (value : α)
  | pyNone
  | structError
  | unicodeError
  | outOfFuel
deriving DecidableEq

/-- Python dict assignment d[k] = v: when the key is present the stored
value is replaced in place (iteration order keeps the original position),
otherwise the pair is appended. Keys stay unique. -/
def dictInsert {κ α : Type} [DecidableEq κ] (d : List (κ × α)) (k : κ) (v : α) :
    List (κ × α) :=
  if d.any (fun p => decide (p.1 = k)) then
    d.map (fun p => if p.1 = k then (k, v) else p)
  else d ++ [(k, v)]

/-- Python dict lookup d.get(k): the value stored under k, if any. -/
def dictFind? {κ α : Type} [DecidableEq κ] (d : List (κ × α)) (k : κ) : Option α :=
  (d.find? (fun p => decide (p.1 = k))).map (·.2)

/-- The inner byte loop of both readers: bytes of the word up to the first
0 byte, and the remaining input after that terminator. none models hitting
end of file before any terminator (the reader then returns its current
mapping, dropping a trailing unterminated word). -/
def takeWord : List Byte → Option (List Byte × List Byte)
  | [] => none
  | b :: rest =>
    if b = 0 then some ([], rest)
    else
      match takeWord rest with
      | none => none
      | some (w, r) => some (b :: w, r)

/-- Big-endian value of a byte string, as struct.unpack with format >I
computes it on four bytes. -/
def beNat (bs : List Byte) : Nat :=
  bs.foldl (fun a b => 256 * a + b) 0

/-- The four big-endian bytes of an unsigned 32-bit value, as struct.pack
with format >I lays them out. -/
def beBytes4 (n : Nat) : List Byte :=
  [n / 16777216 % 256, n / 65536 % 256, n / 256 % 256, n % 256]

/-- Strict UTF-8 decoding of a byte string, as bytes.decode with encoding
utf-8 performs it: none on a malformed sequence (stray or missing
continuation bytes, overlong forms, surrogates, code points past
U+10FFFF). -/
def utf8Decode : List Byte → Option (List Char)
  | [] => some []
  | b :: rest =>
    if b < 128 then (utf8Decode rest).map (fun cs => Char.ofNat b :: cs)
    else if b < 192 then none
    else if b < 224 then
      match rest with
      | b1 :: rest1 =>
        if 128 ≤ b1 ∧ b1 < 192 then
          let cp := (b - 192) * 64 + (b1 - 128)
          if cp < 128 then none
          else (utf8Decode rest1).map (fun cs => Char.ofNat cp :: cs)
        else none
      | [] => none
    else if b < 240 then
      match rest with
      | b1 :: b2 :: rest2 =>
        if (128 ≤ b1 ∧ b1 < 192) ∧ (128 ≤ b2 ∧ b2 < 192) then
          let cp := (b - 224) * 4096 + (b1 - 128) * 64 + (b2 - 128)
          if cp < 2048 ∨ (55296 ≤ cp ∧ cp ≤ 57343) then none
          else (utf8Decode rest2).map (fun cs => Char.ofNat cp :: cs)
        else none
      | _ => none
    else if b < 245 then
      match rest with
      | b1 :: b2 :: b3 :: rest3 =>
        if (128 ≤ b1 ∧ b1 < 192) ∧ (128 ≤ b2 ∧ b2 < 192) ∧ (128 ≤ b3 ∧ b3 < 192) then
          let cp := (b - 240) * 262144 + (b1 - 128) * 4096 + (b2 - 128) * 64 + (b3 - 128)
          if cp < 65536 ∨ 1114111 < cp then none
          else (utf8Decode rest3).map (fun cs => Char.ofNat cp :: cs)
        else none
      | _ => none
    else none

/-- The loop of read_idx. Per iteration: read a null-terminated word
(end of file before the terminator returns the mapping built so far), then
decode the word bytes as UTF-8 — an invalid sequence makes decode raise an
uncaught UnicodeDecodeError, aborting the reader with nothing returned —
then read up to four offset bytes and up to four size bytes. An empty read
on either makes the Python loop break, after which read_idx falls off the
end of the function with NO return statement, so it returns None, not the
mapping. A non-empty read shorter than four bytes makes struct.unpack
raise struct.error. Otherwise the record is stored, overwriting a
duplicate word in place. Validly decoded words are kept as their raw
bytes: UTF-8 decoding is injective, so the mapping built here is the
source mapping up to that renaming of keys. -/
def readIdxLoop : Nat → List (List Byte × Nat × Nat) → List Byte →
    ReadRes (List (List Byte × Nat × Nat))
  | 0, _, _ => .outOfFuel
  | fuel + 1, acc, bytes =>
    match takeWord bytes with
    | none => .ok acc
    | some (w, rest) =>
      match utf8Decode w with
      | none => .unicodeError
      | some _ =>
        let offsetBytes := rest.take 4
        let sizeBytes := (rest.drop 4).take 4
        if offsetBytes.length = 0 ∨ sizeBytes.length = 0 then .pyNone
        else if offsetBytes.length < 4 ∨ sizeBytes.length < 4 then .structError
        else
          readIdxLoop fuel (dictInsert acc w (beNat offsetBytes, beNat sizeBytes))
            ((rest.drop 4).drop 4)

/-- read_idx on the bytes of the .idx file. -/
def read_idx (bytes : List Byte) : ReadRes (List (List Byte × Nat × Nat)) :=
  readIdxLoop (bytes.length + 1) [] bytes

/-- The loop of read_syn. Same record layout as readIdxLoop with three
differences of the source: an empty word is skipped with continue before
any offset or size byte is read, the decoding of word bytes is latin1
(total and injective, so raw bytes again stand for the decoded keys), and
the function ends with return syn_map, so the break on an empty offset or
size read returns the mapping parsed so far instead of None. -/
def readSynLoop : Nat → List (List Byte × Nat × Nat) → List Byte →
    ReadRes (List (List Byte × Nat × Nat))
  | 0, _, _ => .outOfFuel
  | fuel + 1, acc, bytes =>
    match takeWord bytes with
    | none => .ok acc
    | some (w, rest) =>
      if w.length = 0 then readSynLoop fuel acc rest
      else
        let offsetBytes := rest.take 4
        let sizeBytes := (rest.drop 4).take 4
        if offsetBytes.length = 0 ∨ sizeBytes.length = 0 then .ok acc
        else if offsetBytes.length < 4 ∨ sizeBytes.length < 4 then .structError
        else
          readSynLoop fuel (dictInsert acc w (beNat offsetBytes, beNat sizeBytes))
            ((rest.drop 4).drop 4)

/-- read_syn on the bytes of the .syn file. -/
def read_syn (bytes : List Byte) : ReadRes (List (List Byte × Nat × Nat)) :=
  readSynLoop (bytes.length + 1) [] bytes

/-- The binary layout of one index record: the word bytes, a 0 terminator,
then offset and size as 4-byte big-endian unsigned integers. -/
def serRecord (r : List Byte × Nat × Nat) : List Byte :=
  r.1 ++ 0 :: (beBytes4 r.2.1 ++ beBytes4 r.2.2)

/-- A whole synthetic index file: the records laid out one after the
other. -/
def serIdx (records : List (List Byte × Nat × Nat)) : List Byte :=
  (records.map serRecord).flatten

/-- The newline character, on which the decoded definition text is split. -/
def nlChar : Char := Char.ofNat 10

/-- The space character, on which the synonym field is split. -/
def spChar : Char := Char.ofNat 32

/-- The dot character, on which version_key splits its argument. -/
def dotChar : Char := Char.ofNat 46

/-- The minus sign accepted by the Python int constructor. -/
def minusChar : Char := Char.ofNat 45

/-- The plus sign accepted by the Python int constructor. -/
def plusChar : Char := Char.ofNat 43

/-- The underscore, accepted by the Python int constructor between two
digits as a grouping mark. -/
def usChar : Char := Char.ofNat 95

/-- Helper of pySplit: the accumulated current field is flushed at each
separator and at the end of the input, so that a separator always opens a
new (possibly empty) field. -/
def pySplitAux (sep : Char) : List Char → List Char → List (List Char)
  | acc, [] => [acc.reverse]
  | acc, c :: cs =>
    if c = sep then acc.reverse :: pySplitAux sep [] cs
    else pySplitAux sep (c :: acc) cs

/-- Python str.split with a one-character separator: splitting the empty
string gives one empty field, and adjacent separators give empty fields. -/
def pySplit (s : String) (sep : Char) : List String :=
  (pySplitAux sep [] s.data).map (fun cs => ⟨cs⟩)

/-- Helper of digitsToNat: extends the value of the digits already read.
A single underscore is accepted only when a digit follows it (and, by
construction of the caller, a digit precedes it). -/
def digitsToNatAux : Nat → List Char → Option Nat
  | acc, [] => some acc
  | acc, c :: cs =>
    if c.isDigit then digitsToNatAux (10 * acc + (c.toNat - 48)) cs
    else if c = usChar then
      match cs with
      | [] => none
      | d :: cs2 =>
        if d.isDigit then digitsToNatAux (10 * acc + (d.toNat - 48)) cs2
        else none
    else none

/-- The value of a run of decimal digits with optional single underscores
between two digits, per the Python integer grammar digit ([_] digit)*:
none on an empty run, a leading, trailing or doubled underscore, or any
other non-digit. -/
def digitsToNat (cs : List Char) : Option Nat :=
  match cs with
  | [] => none
  | c :: cs2 => if c.isDigit then digitsToNatAux (c.toNat - 48) cs2 else none

/-- The Python int constructor on a string: surrounding whitespace is
stripped, one optional sign is accepted, then decimal digits with
optional underscore grouping; none models the ValueError on anything
else. (Non-ASCII Unicode digits and non-ASCII whitespace, which the
source never feeds it, are not modelled.) -/
def pyInt? (s : String) : Option Int :=
  match (s.data.dropWhile Char.isWhitespace).reverse.dropWhile Char.isWhitespace
      |>.reverse with
  | [] => none
  | c :: ds =>
    if c = minusChar then (digitsToNat ds).map (fun n => -(n : Int))
    else if c = plusChar then (digitsToNat ds).map (fun n => (n : Int))
    else (digitsToNat (c :: ds)).map (fun n => (n : Int))

/-- version_key of the source: split the string on dots and map each part
through int, substituting 0 for a part int rejects. The result is a Python
tuple whose LENGTH is the number of dot-separated parts, modelled as a
list of integers. (The branch returning (0, 0, 0) for a non-string
argument is outside this embedding, whose argument is always a string.) -/
def version_key (vstr : String) : List Int :=
  (pySplit vstr dotChar).map (fun part => (pyInt? part).getD 0)

/-- Latin1 decoding: every byte is its own code point, so the decode is
total and the errors=replace of the source never fires. -/
def latin1Decode (bs : List Byte) : List Char :=
  bs.map (fun b => Char.ofNat b)

/-- The decode of a sliced definition: UTF-8 first, latin1 on a
UnicodeDecodeError, as the try/except of the main loop does. -/
def decodeText (bs : List Byte) : String :=
  match utf8Decode bs with
  | some cs => ⟨cs⟩
  | none => ⟨latin1Decode bs⟩

/-- The Python slice data[offset : offset + size] for nonnegative offset
and size: it clamps both bounds to the data length, returning fewer than
size bytes without any error when the range leaves the data. -/
def pySlice (data : List Byte) (offset size : Nat) : List Byte :=
  (data.drop offset).take size

/-- The value stored in json_entries under one word: the source stores a
plain Python dict whose key set differs between the two loops. A main
entry carries the keys artha, text_number and synonyms; an alias entry
carries the keys meaning and synonyms only. -/
inductive PyEntry where
  | mainE (artha : String) (text_number : String) (synonyms : List String)
  | aliasE (meaning : String) (synonyms : List String)
deriving DecidableEq

/-- The subscript entry["meaning"]: main entries have no such key, so the
lookup raises KeyError there. -/
def entryMeaning : PyEntry → Except String String
  | .mainE _ _ _ => .error "KeyError: meaning"
  | .aliasE m _ => .ok m

/-- The subscript entry["text_number"]: alias entries have no such key, so
the lookup raises KeyError there. -/
def entryTextNumber : PyEntry → Except String String
  | .mainE _ t _ => .ok t
  | .aliasE _ _ => .error "KeyError: text_number"

/-- The body of the main loop on one decoded meaning: split on newline and
take entities[0], entities[1] and entities[2], the last further split on
spaces. Fewer than three lines raise IndexError. -/
def buildMainEntry (meaning : String) : Except String PyEntry :=
  match pySplit meaning nlChar with
  | e0 :: e1 :: e2 :: _ => .ok (.mainE e0 e1 (pySplit e2 spChar))
  | _ => .error "IndexError: list index out of range"

/-- The main loop of the source: for every word of the index, slice the
blob, decode, build the entry and store it under the word. -/
def addMain (blob : List Byte) (acc : List (String × PyEntry)) :
    List (String × Nat × Nat) → Except String (List (String × PyEntry))
  | [] => .ok acc
  | (w, off, sz) :: rest => do
    let e ← buildMainEntry (decodeText (pySlice blob off sz))
    addMain blob (dictInsert acc w e) rest

/-- The per-synonym linear scan of the source: the first word of the index,
in iteration order, whose offset and size both match. -/
def scanResolve (idx : List (String × Nat × Nat)) (offset size : Nat) :
    Option String :=
  (idx.find? (fun p => decide (p.2.1 = offset) && decide (p.2.2 = size))).map (·.1)

/-- The synonym loop of the source: an unresolved synonym is skipped; a
resolved one reads json_entries[main_word]["meaning"] (each subscript can
raise KeyError) and stores an alias entry under the synonym word. -/
def addSyns (idx : List (String × Nat × Nat)) (acc : List (String × PyEntry)) :
    List (String × Nat × Nat) → Except String (List (String × PyEntry))
  | [] => .ok acc
  | (synWord, off, sz) :: rest =>
    match scanResolve idx off sz with
    | none => addSyns idx acc rest
    | some mainWord => do
      let mainEntry ← match dictFind? acc mainWord with
        | some e => Except.ok e
        | none => Except.error ("KeyError: " ++ mainWord)
      let g ← entryMeaning mainEntry
      addSyns idx (dictInsert acc synWord (.aliasE g [mainWord])) rest

/-- json_entries as the source builds it: the main loop over the index,
then the synonym loop. -/
def json_entries (idx : List (String × Nat × Nat)) (blob : List Byte)
    (synMap : List (String × Nat × Nat)) : Except String (List (String × PyEntry)) := do
  let m ← addMain blob [] idx
  addSyns idx m synMap

/-- The sort key of one item: version_key of the subscript
item[1]["text_number"], which raises KeyError on an alias entry. -/
def sortKey (p : String × PyEntry) : Except String (List Int) :=
  (entryTextNumber p.2).map version_key

/-- The key computation of Python sorted with a key function: keys are
computed for every item, in list order, before any comparison. -/
def computeKeys : List (String × PyEntry) →
    Except String (List (List Int × (String × PyEntry)))
  | [] => .ok []
  | p :: rest =>
    match sortKey p with
    | .error e => .error e
    | .ok k =>
      match computeKeys rest with
      | .error e => .error e
      | .ok keyed => .ok ((k, p) :: keyed)

/-- Comparison of Python integer tuples: lexicographic, a strict shared
first part making the shorter tuple smaller. -/
def lexLe : List Int → List Int → Bool
  | [], _ => true
  | _ :: _, [] => false
  | a :: as, b :: bs => if a < b then true else if b < a then false else lexLe as bs

/-- The comparison the sort uses on key-decorated items: lexLe on the
computed keys. -/
def keyedLe (a b : List Int × (String × PyEntry)) : Prop :=
  lexLe a.1 b.1 = true

instance : DecidableRel keyedLe := fun a b =>
  inferInstanceAs (Decidable (lexLe a.1 b.1 = true))

/-- sorted(json_entries.items(), key) of the source. Python sorted is
specified as the ascending STABLE sort by the key, which determines the
output uniquely; it is realised here by the stable List.insertionSort. -/
def sorted_entries (l : List (String × PyEntry)) :
    Except String (List (String × PyEntry)) :=
  (computeKeys l).map (fun keyed =>
    (List.insertionSort keyedLe keyed).map (·.2))

/-- The sort key as a total observation on entries, for stating order
properties: it agrees with sortKey wherever sortKey succeeds. -/
def entryKeyObs (p : String × PyEntry) : List Int :=
  match p.2 with
  | .mainE _ t _ => version_key t
  | .aliasE _ _ => []

/-- The three header fields of final_json. -/
structure FinalHeader where
  dictionary_name : String
  version : String
  author : String
deriving DecidableEq

/-- The header of final_json as the source fills it from the metadata with
dict.get: bookname falls back to the string Unknown Dictionary, version
and author to the empty string. -/
def finalHeader (metadata : List (String × String)) : FinalHeader :=
  { dictionary_name := (dictFind? metadata "bookname").getD "Unknown Dictionary"
    version := (dictFind? metadata "version").getD ""
    author := (dictFind? metadata "author").getD "" }

/-- Modelled from the spec: a reverse lookup from (offset, size) to the
owning main word, built once over the whole index as a mapping (a later
record overwrites an earlier one on a duplicate pair). The spec prescribes
it in place of the per-synonym linear scan; the repository has no code for
it. -/
def buildReverse (idx : List (String × Nat × Nat)) : List ((Nat × Nat) × String) :=
  idx.foldl (fun m p => dictInsert m p.2 p.1) []

/-- Modelled from the spec: resolving one synonym through the precomputed
reverse mapping. -/
def reverseResolve (rev : List ((Nat × Nat) × String)) (offset size : Nat) :
    Option String :=
  dictFind? rev (offset, size)

/-! ### General lemmas about the embedded operations -/

/-- takeWord never returns a remainder at least as long as its input: the
0 terminator is consumed. -/
theorem takeWord_some_length :
    ∀ {bs w r : List Byte}, takeWord bs = some (w, r) → r.length < bs.length := by
  intro bs
  induction bs with
  | nil => intro w r h; simp [takeWord] at h
  | cons b rest ih =>
    intro w r h
    by_cases hb : b = 0
    · simp [takeWord, hb] at h
      simp [h.2.symm]
    · simp only [takeWord, if_neg hb] at h
      cases hr : takeWord rest with
      | none => rw [hr] at h; simp at h
      | some p =>
        rw [hr] at h
        obtain ⟨w1, r1⟩ := p
        simp at h
        have := ih hr
        simp [← h.2]
        omega

/-- With fuel above the input length, readIdxLoop never runs out of it:
each loop iteration consumes at least the terminator byte. The outOfFuel
value is an artifact of the embedding only. -/
theorem readIdxLoop_no_fuel_exhaustion :
    ∀ (fuel : Nat) (acc : List (List Byte × Nat × Nat)) (bytes : List Byte),
      bytes.length < fuel → readIdxLoop fuel acc bytes ≠ .outOfFuel := by
  intro fuel
  induction fuel with
  | zero => intro acc bytes h; omega
  | succ f ih =>
    intro acc bytes h
    rw [readIdxLoop]
    cases htw : takeWord bytes with
    | none => simp
    | some p =>
      obtain ⟨w, rest⟩ := p
      have hlen := takeWord_some_length htw
      simp only []
      split
      · simp
      · split
        · simp
        · split
          · simp
          · apply ih
            have : ((rest.drop 4).drop 4).length ≤ rest.length := by
              simp only [List.length_drop]
              omega
            omega

/-- The same for readSynLoop. -/
theorem readSynLoop_no_fuel_exhaustion :
    ∀ (fuel : Nat) (acc : List (List Byte × Nat × Nat)) (bytes : List Byte),
      bytes.length < fuel → readSynLoop fuel acc bytes ≠ .outOfFuel := by
  intro fuel
  induction fuel with
  | zero => intro acc bytes h; omega
  | succ f ih =>
    intro acc bytes h
    rw [readSynLoop]
    cases htw : takeWord bytes with
    | none => simp
    | some p =>
      obtain ⟨w, rest⟩ := p
      have hlen := takeWord_some_length htw
      simp only []
      split
      · exact ih acc rest (by omega)
      · split
        · simp
        · split
          · simp
          · apply ih
            have : ((rest.drop 4).drop 4).length ≤ rest.length := by
              simp only [List.length_drop]
              omega
            omega

/-- Reading a null-terminated word whose bytes are all nonzero recovers
exactly those bytes and leaves the remaining input. -/
theorem takeWord_append (w rest : List Byte) (h : ∀ b ∈ w, b ≠ 0) :
    takeWord (w ++ 0 :: rest) = some (w, rest) := by
  induction w with
  | nil => simp [takeWord]
  | cons b bs ih =>
    have hb : ¬ b = 0 := h b (by simp)
    have ihh := ih (fun x hx => h x (by simp [hx]))
    simp [takeWord, hb, ihh]

/-- Unpacking the four packed big-endian bytes of an unsigned 32-bit value
recovers the value. -/
theorem beNat_beBytes4 (n : Nat) (h : n < 4294967296) : beNat (beBytes4 n) = n := by
  simp [beNat, beBytes4, List.foldl]
  omega

/-- The serialized index of a first record followed by more records. -/
theorem serIdx_cons (r : List Byte × Nat × Nat) (rs : List (List Byte × Nat × Nat)) :
    serIdx (r :: rs) = r.1 ++ 0 :: (beBytes4 r.2.1 ++ (beBytes4 r.2.2 ++ serIdx rs)) := by
  simp [serIdx, serRecord]

/-- A serialized index is at least as long as its record count: every
record contributes its terminator and eight integer bytes. -/
theorem length_le_serIdx (records : List (List Byte × Nat × Nat)) :
    records.length ≤ (serIdx records).length := by
  induction records with
  | nil => simp [serIdx]
  | cons r rs ih =>
    rw [serIdx_cons]
    simp only [List.length_cons, List.length_append]
    omega

/-- The read loop undoes serialization, for any accumulator and any
sufficient fuel: each record is parsed back and stored with the dict
assignment semantics. -/
theorem readIdxLoop_serIdx (records : List (List Byte × Nat × Nat)) :
    ∀ (fuel : Nat) (acc : List (List Byte × Nat × Nat)),
      records.length < fuel →
      (∀ r ∈ records, ∀ b ∈ r.1, 0 < b ∧ b < 256) →
      (∀ r ∈ records, (utf8Decode r.1).isSome = true) →
      (∀ r ∈ records, r.2.1 < 4294967296 ∧ r.2.2 < 4294967296) →
      readIdxLoop fuel acc (serIdx records) =
        .ok (records.foldl (fun d r => dictInsert d r.1 r.2) acc) := by
  induction records with
  | nil =>
    intro fuel acc hf _ _ _
    obtain ⟨f, rfl⟩ : ∃ f, fuel = f + 1 := ⟨fuel - 1, by omega⟩
    simp [serIdx, readIdxLoop, takeWord]
  | cons r rs ih =>
    intro fuel acc hf hw hu ho
    obtain ⟨f, rfl⟩ : ∃ f, fuel = f + 1 := ⟨fuel - 1, by omega⟩
    have h4 : (beBytes4 r.2.1).length = 4 := rfl
    have h4' : (beBytes4 r.2.2).length = 4 := rfl
    have hb0 : ∀ b ∈ r.1, b ≠ 0 := fun b hb =>
      Nat.pos_iff_ne_zero.mp (hw r (by simp) b hb).1
    have htw := takeWord_append r.1 (beBytes4 r.2.1 ++ (beBytes4 r.2.2 ++ serIdx rs)) hb0
    have ho1 := ho r (by simp)
    obtain ⟨cs, hv⟩ := Option.isSome_iff_exists.mp (hu r (by simp))
    rw [serIdx_cons]
    simp only [readIdxLoop, htw, hv, List.take_left' h4, List.drop_left' h4,
      List.take_left' h4', List.drop_left' h4', h4, h4',
      beNat_beBytes4 _ ho1.1, beNat_beBytes4 _ ho1.2]
    norm_num
    have hlen : rs.length < f := by
      have : rs.length + 1 < f + 1 := by simpa using hf
      omega
    rw [ih f (dictInsert acc r.1 r.2) hlen
      (fun q hq => hw q (by simp [hq])) (fun q hq => hu q (by simp [hq]))
      (fun q hq => ho q (by simp [hq]))]

/-- Claim C8: round-trip of the binary index layout. For every finite list
of synthetic (word, offset, size) records, with nonzero word bytes below
256 forming valid UTF-8 (invalid words make the real reader raise an
uncaught UnicodeDecodeError instead) and offset and size below 2 to the
32, serializing them (word bytes, a 0 terminator, then two 4-byte
big-endian unsigned integers each) and reading the bytes back with
read_idx yields exactly the mapping of those word-to-(offset, size)
associations built by dict assignment, so a duplicated word keeps the
offset and size of its last occurrence. -/
theorem c8_read_idx_round_trip (records : List (List Byte × Nat × Nat))
    (hw : ∀ r ∈ records, ∀ b ∈ r.1, 0 < b ∧ b < 256)
    (hu : ∀ r ∈ records, (utf8Decode r.1).isSome = true)
    (ho : ∀ r ∈ records, r.2.1 < 4294967296 ∧ r.2.2 < 4294967296) :
    read_idx (serIdx records) =
      .ok (records.foldl (fun d r => dictInsert d r.1 r.2) []) := by
  have := length_le_serIdx records
  exact readIdxLoop_serIdx records ((serIdx records).length + 1) [] (by omega) hw hu ho

/-- Witness for C8 at a concrete three-record input with a duplicated
word: the duplicate keeps the last (offset, size) and its original
position. -/
theorem c8_read_idx_round_trip_witness :
    read_idx (serIdx [([97], 1, 2), ([98, 99], 3, 4), ([97], 7, 8)]) =
      .ok [([97], 7, 8), ([98, 99], 3, 4)] :=
  (c8_read_idx_round_trip [([97], 1, 2), ([98, 99], 3, 4), ([97], 7, 8)]
    (by decide) (by decide) (by decide)).trans (by decide)

/-- Claim C1: the source cannot produce the alias entries the spec
describes. At the very index and synonym record of the claim, the linear
scan does resolve the synonym agnis to the main word agni (and does not
resolve ghost), but building the alias entry reads
json_entries["agni"]["meaning"], and main entries carry the key artha, not
meaning, so the pipeline raises KeyError instead of emitting any output.
The blob below decodes to two well-formed three-line definitions. -/
theorem c1_resolved_synonym_raises_key_error :
    scanResolve [("agni", 0, 10), ("indra", 10, 8)] 0 10 = some "agni" ∧
    scanResolve [("agni", 0, 10), ("indra", 10, 8)] 99 4 = none ∧
    json_entries [("agni", 0, 10), ("indra", 10, 8)]
      [103, 10, 49, 46, 49, 46, 49, 10, 97, 98, 104, 10, 50, 46, 50, 10, 99, 32]
      [("agnis", 0, 10), ("ghost", 99, 4)] = .error "KeyError: meaning" := by
  decide

/-- Claim C2: the blob slicing of the main loop has no out-of-bounds
failure at all. On a five-byte blob, requesting ten bytes from offset 0
silently returns the five available bytes, so the slice is truncated with
no visible signal instead of surfacing a named OutOfBounds condition. -/
theorem c2_slice_truncates_silently :
    pySlice [11, 22, 33, 44, 55] 0 10 = [11, 22, 33, 44, 55] ∧
    (pySlice [11, 22, 33, 44, 55] 0 10).length = 5 ∧
    pySlice [11, 22, 33, 44, 55] 3 4 = [44, 55] := by
  decide

/-- Claim C3: version_key maps 1.12.4 to (1, 12, 4) and 1.x.4 to
(1, 0, 4), a non-integer segment becoming 0; but a string that fails the
three-segment pattern entirely yields the one-element tuple (0,), not
(0, 0, 0) as both the claim and the docstring of version_key state. -/
theorem c3_version_key_values :
    version_key "1.12.4" = [1, 12, 4] ∧
    version_key "1.x.4" = [1, 0, 4] ∧
    version_key "garbage" = [0] ∧
    version_key "" = [0] ∧
    version_key "garbage" ≠ [0, 0, 0] := by
  decide

/-- Counterexample to claim C4: a decoded definition text of a single line
does not make entry construction succeed with empty trailing fields; the
subscript entities[1] raises IndexError. -/
theorem c4_short_text_raises_index_error :
    (pySplit "fire-god" nlChar).length < 3 ∧
    buildMainEntry "fire-god" = .error "IndexError: list index out of range" := by
  decide

/-- Claim C4 as amended: entry construction from a decoded definition text
raises IndexError exactly when the text splits into fewer than three
newline-separated lines; missing trailing fields are never defaulted to
empty values. -/
theorem c4_short_text_is_index_error (meaning : String) :
    buildMainEntry meaning = .error "IndexError: list index out of range" ↔
      (pySplit meaning nlChar).length < 3 := by
  unfold buildMainEntry
  rcases h : pySplit meaning nlChar with _ | ⟨a, _ | ⟨b, _ | ⟨c, t⟩⟩⟩ <;>
    simp [h]

/-- Claim C5: at the concrete truncated inputs below, the readers do not
both return the mapping parsed so far. read_idx parses the word with bytes
97 98, meets two trailing offset bytes, breaks out of its loop and then
falls off the end of the function, returning None rather than the mapping;
and read_syn, fed a valid word followed by four offset bytes and a single
size byte, raises struct.error from unpacking the short size read. Only
read_syn with an empty offset or size read returns its mapping. -/
theorem c5_truncated_tail_not_returned :
    read_idx [97, 98, 0, 1, 2] = .pyNone ∧
    read_syn [97, 0, 1, 2, 3, 4, 5] = .structError ∧
    read_syn [97, 98, 0, 1, 2] = .ok [] := by
  decide

/-- Counterexample to claim C6: with every metadata key absent, the
version and author fields of the output document default to the empty
string and the name to Unknown Dictionary; none of the three is the
explicit placeholder unknown. -/
theorem c6_absent_fields_default_to_empty :
    finalHeader [] = ⟨"Unknown Dictionary", "", ""⟩ ∧
    ("" : String) ≠ "unknown" ∧
    ("Unknown Dictionary" : String) ≠ "unknown" := by
  decide

/-- Claim C6 as amended: when the corresponding keys are absent from the
parsed metadata, the dictionary name defaults to the string Unknown
Dictionary, and the version and author fields default to the empty
string. -/
theorem c6_header_defaults (metadata : List (String × String))
    (h1 : ∀ p ∈ metadata, p.1 ≠ "bookname")
    (h2 : ∀ p ∈ metadata, p.1 ≠ "version")
    (h3 : ∀ p ∈ metadata, p.1 ≠ "author") :
    finalHeader metadata = ⟨"Unknown Dictionary", "", ""⟩ := by
  have f : ∀ k, (∀ p ∈ metadata, p.1 ≠ k) → dictFind? metadata k = none := by
    intro k hk
    unfold dictFind?
    rw [List.find?_eq_none.mpr]
    · rfl
    · intro p hp
      simp [hk p hp]
  simp [finalHeader, f _ h1, f _ h2, f _ h3]

/-- Witness for C6 as amended, at a metadata mapping carrying none of the
three header keys. -/
theorem c6_header_defaults_witness :
    finalHeader [("wordcount", "42")] = ⟨"Unknown Dictionary", "", ""⟩ :=
  c6_header_defaults [("wordcount", "42")] (by decide) (by decide) (by decide)

/-- Claim C10: the overwrite of a main entry by a same-named alias never
happens, because no alias entry is ever built. With the synonym word equal
to the main headword agni, resolution succeeds, but the alias value being
stored reads json_entries["agni"]["meaning"] first, which raises KeyError
(main entries carry artha); the pipeline aborts with the main entry still
holding its original fields, as the succeeding main loop shows. -/
theorem c10_alias_overwrite_never_happens :
    addMain [103, 10, 49, 46, 49, 46, 49, 10, 97, 98] [] [("agni", 0, 10)] =
      .ok [("agni", .mainE "g" "1.1.1" ["ab"])] ∧
    json_entries [("agni", 0, 10)] [103, 10, 49, 46, 49, 46, 49, 10, 97, 98]
      [("agni", 0, 10)] = .error "KeyError: meaning" := by
  decide

/-- Inserting a fresh key into a dict appends the pair. -/
theorem dictInsert_of_fresh {κ α : Type} [DecidableEq κ]
    (d : List (κ × α)) (k : κ) (v : α) (h : ∀ p ∈ d, p.1 ≠ k) :
    dictInsert d k v = d ++ [(k, v)] := by
  unfold dictInsert
  rw [if_neg]
  simp only [List.any_eq_true, decide_eq_true_eq, not_exists, not_and]
  exact h

/-- When every record of the index carries a distinct (offset, size) pair
and none of them collides with a key already in the accumulator, folding
the dict insertions of buildReverse appends the swapped records in
order. -/
theorem buildReverse_fold (idx : List (String × Nat × Nat)) :
    ∀ acc : List ((Nat × Nat) × String),
      (idx.map (fun p => p.2)).Nodup →
      (∀ p ∈ idx, ∀ q ∈ acc, q.1 ≠ p.2) →
      idx.foldl (fun m p => dictInsert m p.2 p.1) acc =
        acc ++ idx.map (fun p => (p.2, p.1)) := by
  induction idx with
  | nil => intro acc _ _; simp
  | cons r rs ih =>
    intro acc hn hd
    rw [List.map_cons] at hn
    obtain ⟨hnotin, hnd⟩ := List.nodup_cons.mp hn
    simp only [List.foldl_cons]
    rw [dictInsert_of_fresh acc r.2 r.1 (fun q hq => hd r (by simp) q hq)]
    rw [ih (acc ++ [(r.2, r.1)]) hnd]
    · simp
    · intro p hp q hq
      rcases List.mem_append.mp hq with hq1 | hq2
      · exact hd p (by simp [hp]) q hq1
      · simp only [List.mem_singleton] at hq2
        subst hq2
        intro hcontra
        have hc2 : r.2 = p.2 := hcontra
        exact hnotin (hc2 ▸ List.mem_map_of_mem (fun p => p.2) hp)

/-- Claim C9: refinement of synonym resolution. For every main index in
which no two words carry the same (offset, size) pair, resolving a synonym
through the reverse mapping from (offset, size) to word that the spec
prescribes (built once over the index) yields exactly the outcome of the
per-synonym linear scan of the source: the same main word, or not
found. -/
theorem c9_scan_equals_reverse_lookup (idx : List (String × Nat × Nat))
    (offset size : Nat)
    (h : (idx.map (fun p => p.2)).Nodup) :
    scanResolve idx offset size = reverseResolve (buildReverse idx) offset size := by
  unfold reverseResolve buildReverse
  rw [buildReverse_fold idx [] h (by simp)]
  unfold dictFind? scanResolve
  rw [List.nil_append, List.find?_map]
  have hpred : ((fun q : (Nat × Nat) × String => decide (q.1 = (offset, size))) ∘
      (fun p : String × Nat × Nat => (p.2, p.1))) =
      fun p : String × Nat × Nat =>
        decide (p.2.1 = offset) && decide (p.2.2 = size) := by
    funext p
    simp [Function.comp, Prod.ext_iff]
  rw [hpred]
  cases hf : idx.find? (fun p => decide (p.2.1 = offset) && decide (p.2.2 = size)) <;>
    simp

/-- Witness for C9 at the two-record index of the spec, whose offset and
size pairs are distinct. -/
theorem c9_scan_equals_reverse_lookup_witness :
    scanResolve [("agni", 0, 10), ("indra", 10, 8)] 0 10 =
      reverseResolve (buildReverse [("agni", 0, 10), ("indra", 10, 8)]) 0 10 :=
  c9_scan_equals_reverse_lookup [("agni", 0, 10), ("indra", 10, 8)] 0 10 (by decide)

/-- Tuple comparison is reflexive. -/
theorem lexLe_refl (x : List Int) : lexLe x x = true := by
  induction x with
  | nil => rfl
  | cons a as ih => simp [lexLe, ih]

/-- Tuple comparison is total. -/
theorem lexLe_total (x : List Int) : ∀ y, lexLe x y = true ∨ lexLe y x = true := by
  induction x with
  | nil => intro y; left; rfl
  | cons a as ih =>
    intro y
    cases y with
    | nil => right; rfl
    | cons b bs =>
      rcases lt_trichotomy a b with h | h | h
      · left; simp [lexLe, h]
      · subst h
        rcases ih bs with h2 | h2
        · left; simp [lexLe, h2]
        · right; simp [lexLe, h2]
      · right; simp [lexLe, h]

/-- Tuple comparison is transitive. -/
theorem lexLe_trans (x : List Int) :
    ∀ y z, lexLe x y = true → lexLe y z = true → lexLe x z = true := by
  induction x with
  | nil => intro y z _ _; rfl
  | cons a as ih =>
    intro y z hxy hyz
    cases y with
    | nil => simp [lexLe] at hxy
    | cons b bs =>
      cases z with
      | nil => simp [lexLe] at hyz
      | cons c cs =>
        simp only [lexLe] at hxy hyz ⊢
        split_ifs at hxy hyz ⊢ <;>
          first
          | rfl
          | exact absurd hxy Bool.false_ne_true
          | exact absurd hyz Bool.false_ne_true
          | omega
          | exact ih bs cs hxy hyz

/-- Inserting an item whose key equals k puts it in front of every item of
key k already present: the insertion walks only past strictly smaller
keys. This is the heart of stability. -/
theorem filter_orderedInsert_key (k : List Int) (x : List Int × (String × PyEntry))
    (l : List (List Int × (String × PyEntry))) (hx : x.1 = k) :
    (List.orderedInsert keyedLe x l).filter (fun e => decide (e.1 = k)) =
      x :: l.filter (fun e => decide (e.1 = k)) := by
  induction l with
  | nil => simp [List.orderedInsert, hx]
  | cons y t ih =>
    by_cases hle : keyedLe x y
    · rw [show List.orderedInsert keyedLe x (y :: t) = x :: y :: t from by
        simp [List.orderedInsert, hle]]
      simp [List.filter, hx]
    · have hy : ¬ y.1 = k := by
        intro hyk
        exact hle (show lexLe x.1 y.1 = true by rw [hx, hyk]; exact lexLe_refl k)
      rw [show List.orderedInsert keyedLe x (y :: t) = y :: List.orderedInsert keyedLe x t
        from by simp [List.orderedInsert, hle]]
      have hdy : decide (y.1 = k) = false := by simp [hy]
      simp only [List.filter, hdy, ih]

/-- Inserting an item of a different key leaves the items of key k
untouched. -/
theorem filter_orderedInsert_ne (k : List Int) (x : List Int × (String × PyEntry))
    (l : List (List Int × (String × PyEntry))) (hx : ¬ x.1 = k) :
    (List.orderedInsert keyedLe x l).filter (fun e => decide (e.1 = k)) =
      l.filter (fun e => decide (e.1 = k)) := by
  induction l with
  | nil => simp [List.orderedInsert, hx]
  | cons y t ih =>
    by_cases hle : keyedLe x y
    · rw [show List.orderedInsert keyedLe x (y :: t) = x :: y :: t from by
        simp [List.orderedInsert, hle]]
      simp [List.filter, hx]
    · rw [show List.orderedInsert keyedLe x (y :: t) = y :: List.orderedInsert keyedLe x t
        from by simp [List.orderedInsert, hle]]
      simp only [List.filter]
      rw [ih]

/-- The insertion sort keeps, for every key value k, exactly the items of
key k of its input, in their input order. -/
theorem filter_insertionSort_key (k : List Int) :
    ∀ l : List (List Int × (String × PyEntry)),
      (List.insertionSort keyedLe l).filter (fun e => decide (e.1 = k)) =
        l.filter (fun e => decide (e.1 = k)) := by
  intro l
  induction l with
  | nil => rfl
  | cons x t ih =>
    simp only [List.insertionSort]
    by_cases hx : x.1 = k
    · rw [filter_orderedInsert_key k x _ hx, ih]
      simp [List.filter, hx]
    · rw [filter_orderedInsert_ne k x _ hx, ih]
      simp [List.filter, hx]

/-- A successful key computation decorates every item with the observable
sort key: success forces every entry to be a main entry, whose computed
key is version_key of its text_number field. -/
theorem computeKeys_ok (l : List (String × PyEntry)) :
    ∀ keyed, computeKeys l = .ok keyed →
      keyed = l.map (fun p => (entryKeyObs p, p)) := by
  induction l with
  | nil =>
    intro keyed h
    simp [computeKeys] at h
    simp [h.symm]
  | cons p rest ih =>
    intro keyed h
    rcases p with ⟨w, e⟩
    cases e with
    | aliasE m s =>
      simp [computeKeys, sortKey, entryTextNumber, Except.map] at h
    | mainE a t s =>
      simp only [computeKeys, sortKey, entryTextNumber, Except.map] at h
      rcases hck : computeKeys rest with err | keyed2 <;> rw [hck] at h
      · simp at h
      · simp only [Except.ok.injEq] at h
        rw [← h, ih keyed2 hck]
        simp [entryKeyObs]

/-- Claim C7: the output of sorted_entries, whenever the sort succeeds, is
sorted ascending by the parsed locator tuple of each entry, and it is
STABLE: for every key value, the entries carrying that key appear in
exactly the order the entry-building phase produced them, so two entries
with the same locator keep their relative order. -/
theorem c7_sorted_entries_sorted_and_stable (l out : List (String × PyEntry))
    (h : sorted_entries l = .ok out) :
    List.Pairwise (fun a b => lexLe (entryKeyObs a) (entryKeyObs b) = true) out ∧
    ∀ k : List Int,
      out.filter (fun p => decide (entryKeyObs p = k)) =
        l.filter (fun p => decide (entryKeyObs p = k)) := by
  unfold sorted_entries at h
  rcases hck : computeKeys l with err | keyed
  · rw [hck] at h; cases h
  · rw [hck] at h
    have hout : out = (List.insertionSort keyedLe keyed).map (·.2) := by
      cases h; rfl
    have hkeyed := computeKeys_ok l keyed hck
    have hinv : ∀ x ∈ List.insertionSort keyedLe keyed, x.1 = entryKeyObs x.2 := by
      intro x hx
      have hx2 : x ∈ keyed := (List.mem_insertionSort keyedLe).mp hx
      rw [hkeyed] at hx2
      obtain ⟨p, hp, hpx⟩ := List.mem_map.mp hx2
      rw [← hpx]
    constructor
    · haveI : IsTrans (List Int × (String × PyEntry)) keyedLe :=
        ⟨fun a b c hab hbc => lexLe_trans a.1 b.1 c.1 hab hbc⟩
      haveI : IsTotal (List Int × (String × PyEntry)) keyedLe :=
        ⟨fun a b => lexLe_total a.1 b.1⟩
      have hs := List.sorted_insertionSort keyedLe keyed
      rw [hout, List.pairwise_map]
      exact hs.imp_of_mem (fun ha hb hr => by
        rw [← hinv _ ha, ← hinv _ hb]
        exact hr)
    · intro k
      rw [hout, List.filter_map]
      have hcong : (List.insertionSort keyedLe keyed).filter
          ((fun p => decide (entryKeyObs p = k)) ∘ (·.2)) =
          (List.insertionSort keyedLe keyed).filter (fun e => decide (e.1 = k)) :=
        List.filter_congr (fun x hx => by
          simp only [Function.comp]
          rw [hinv x hx])
      rw [hcong, filter_insertionSort_key k keyed, hkeyed, List.filter_map,
        List.map_map]
      have hfun : ((fun x : List Int × (String × PyEntry) => x.2) ∘
          fun p : String × PyEntry => (entryKeyObs p, p)) = id := by
        funext p
        rfl
      have hpred2 : ((fun e : List Int × (String × PyEntry) => decide (e.1 = k)) ∘
          fun p : String × PyEntry => (entryKeyObs p, p)) =
          fun p : String × PyEntry => decide (entryKeyObs p = k) := by
        funext p
        rfl
      rw [hfun, hpred2, List.map_id]

/-- Witness for C7 at a concrete three-entry input holding two entries of
the identical locator 1.2.3 in the order b then c: the sort moves the
smaller locator in front and keeps b before c. -/
theorem c7_sorted_entries_sorted_and_stable_witness :
    List.Pairwise (fun a b => lexLe (entryKeyObs a) (entryKeyObs b) = true)
      [("b", PyEntry.mainE "g2" "1.2.3" []), ("c", PyEntry.mainE "g3" "1.2.3" []),
        ("a", PyEntry.mainE "g1" "2.0.1" [])] ∧
    [("b", PyEntry.mainE "g2" "1.2.3" []), ("c", PyEntry.mainE "g3" "1.2.3" []),
        ("a", PyEntry.mainE "g1" "2.0.1" [])].filter
        (fun p => decide (entryKeyObs p = [1, 2, 3])) =
      [("a", PyEntry.mainE "g1" "2.0.1" []), ("b", PyEntry.mainE "g2" "1.2.3" []),
        ("c", PyEntry.mainE "g3" "1.2.3" [])].filter
        (fun p => decide (entryKeyObs p = [1, 2, 3])) := by
  have h := c7_sorted_entries_sorted_and_stable
    [("a", PyEntry.mainE "g1" "2.0.1" []), ("b", PyEntry.mainE "g2" "1.2.3" []),
      ("c", PyEntry.mainE "g3" "1.2.3" [])]
    [("b", PyEntry.mainE "g2" "1.2.3" []), ("c", PyEntry.mainE "g3" "1.2.3" []),
      ("a", PyEntry.mainE "g1" "2.0.1" [])]
    (by decide)
  exact ⟨h.1, h.2 [1, 2, 3]⟩

end AkhyataDict
